import Mathlib

/-!
# Verification of the Inflectiv vault core

A shallow embedding, in Lean 4, of the security-relevant core of the vault
(`src/vault/key_store.py`, `memory_store.py`, `auth.py`, `query_engine.py`,
`vault_server.py`), together with theorems settling the frozen claims about
its specification.

Modelling conventions:
* Python strings are Lean `String`s; all primitive string operations are
  implemented over the underlying `List Char` so that proofs and concrete
  evaluations reduce in the kernel.
* The filesystem visible to a component is an association list from file
  path to stored payload; writing a path replaces its entry.
* Cryptographic primitives (SHA-256, AES-GCM, Fernet) are idealized as
  injective, perfectly authenticated constructions — the standard
  collision-free / unforgeable idealization.
* Wall-clock time is passed explicitly as a parameter wherever the Python
  code calls `time.time()` / `datetime.now()`.
* Python float arithmetic on contribution ratios is modelled as exact
  rational arithmetic via integer cross-multiplication.
-/

set_option maxRecDepth 4000

/-! ## String primitives over the character-list representation -/

/-- `str.lower()` (ASCII model). -/
def lowerStr (s : String) : String := ⟨s.data.map Char.toLower⟩

/-- `str.isalnum()` per character (ASCII model). -/
def isPyAlnum (c : Char) : Bool := c.isAlpha || c.isDigit

/-- Python whitespace characters recognised by `str.strip()`. -/
def charIsSpace (c : Char) : Bool := c = ' ' || c = '\t' || c = '\n' || c = '\r'

/-- `str.strip()`: drop leading and trailing whitespace. -/
def stripStr (s : String) : String :=
  ⟨((s.data.dropWhile charIsSpace).reverse.dropWhile charIsSpace).reverse⟩

/-- Code-point lexicographic `<` on character lists (Python string `<`). -/
def lexLt : List Char → List Char → Bool
  | [], [] => false
  | [], _ :: _ => true
  | _ :: _, [] => false
  | a :: as, b :: bs => if a = b then lexLt as bs else decide (a.val < b.val)

/-- Python string comparison `a < b`. -/
def strLtB (a b : String) : Bool := lexLt a.data b.data

/-- `a.startswith(b)` over character lists. -/
def startsWithStr (a b : String) : Bool := b.data.isPrefixOf a.data

/-- `token[:n]` — the first `n` characters. -/
def takeStr (n : Nat) (s : String) : String := ⟨s.data.take n⟩

/-! ## Association lists (filesystem directories, Python dicts)

`setA` has exactly the Python-`dict` / filesystem-write semantics: updating
an existing key keeps its position, a new key is appended at the end. -/

def lookupA {κ α : Type} [DecidableEq κ] : List (κ × α) → κ → Option α
  | [], _ => none
  | (k, v) :: rest, key => if k = key then some v else lookupA rest key

def updateA {κ α : Type} [DecidableEq κ] : List (κ × α) → κ → α → List (κ × α)
  | [], _, _ => []
  | (k, v) :: rest, key, a =>
    if k = key then (k, a) :: rest else (k, v) :: updateA rest key a

def setA {κ α : Type} [DecidableEq κ] (m : List (κ × α)) (key : κ) (a : α) :
    List (κ × α) :=
  match lookupA m key with
  | some _ => updateA m key a
  | none => m ++ [(key, a)]

def removeA {κ α : Type} [DecidableEq κ] (m : List (κ × α)) (key : κ) :
    List (κ × α) :=
  m.filter (fun p => decide (p.1 ≠ key))

theorem lookupA_updateA_self {κ α : Type} [DecidableEq κ]
    (m : List (κ × α)) (key : κ) (a : α) :
    lookupA (updateA m key a) key = ((lookupA m key).map fun _ => a) := by
  induction m with
  | nil => simp [lookupA, updateA]
  | cons p rest ih =>
    obtain ⟨k, v⟩ := p
    by_cases h : k = key <;> simp [lookupA, updateA, h, ih]

theorem lookupA_append_right {κ α : Type} [DecidableEq κ]
    (m l : List (κ × α)) (key : κ) (h : lookupA m key = none) :
    lookupA (m ++ l) key = lookupA l key := by
  induction m with
  | nil => simp
  | cons p rest ih =>
    obtain ⟨k, v⟩ := p
    by_cases hk : k = key
    · simp [lookupA, hk] at h
    · rw [List.cons_append]
      simp only [lookupA, if_neg hk] at h ⊢
      exact ih h

theorem lookupA_setA_self {κ α : Type} [DecidableEq κ]
    (m : List (κ × α)) (key : κ) (a : α) :
    lookupA (setA m key a) key = some a := by
  unfold setA
  cases h : lookupA m key with
  | some v => rw [lookupA_updateA_self, h]; rfl
  | none => rw [lookupA_append_right m _ key h]; simp [lookupA]

/-! ## Secret store — `src/vault/key_store.py`

AES-GCM is idealized as a perfectly authenticated cipher: a ciphertext is
an abstract record of key, nonce, plaintext and associated data, and
decryption succeeds exactly when key, nonce and associated data all match
(`cryptography`'s `AESGCM.encrypt/decrypt`, with decryption failure —
`InvalidTag` — modelled as `none`). -/

structure AeadCt where
  key : List Nat
  nonce : List Nat
  plaintext : String
  ad : String
deriving DecidableEq

def aesgcmEncrypt (key nonce : List Nat) (pt ad : String) : AeadCt :=
  ⟨key, nonce, pt, ad⟩

def aesgcmDecrypt (key nonce : List Nat) (ct : AeadCt) (ad : String) :
    Option String :=
  if ct.key = key ∧ ct.nonce = nonce ∧ ct.ad = ad then some ct.plaintext else none

/-- The JSON payload written by `KeyStore.store`: `{nonce, ciphertext, name}`. -/
structure SecretPayload where
  nonce : List Nat
  ciphertext : AeadCt
  name : String
deriving DecidableEq

/-- `KeyStore` state: the derived AES key (`self._key`, derived once at
construction) and the files under `secrets_path` (path → payload). The
`.salt` file is key-derivation input and is not modelled as a directory
entry (it does not end in `.enc`, so `list_secrets` ignores it). -/
structure KeyStore where
  key : List Nat
  files : List (String × SecretPayload)
deriving DecidableEq

/-- `KeyStore._secret_path` minus the directory part:
`"".join(c for c in name if c.isalnum() or c in "-_.").lower() + ".enc"`. -/
def sanitizeName (name : String) : String :=
  lowerStr ⟨name.data.filter (fun c => isPyAlnum c || c = '-' || c = '_' || c = '.')⟩

def secretPath (name : String) : String := sanitizeName name ++ ".enc"

/-- `KeyStore.store`: encrypt `value` with a caller-supplied fresh `nonce`,
binding `name` as associated data, and (over)write the payload at the
sanitized path. -/
def KeyStore.store (ks : KeyStore) (nonce : List Nat) (name value : String) :
    KeyStore :=
  let ct := aesgcmEncrypt ks.key nonce value name
  ⟨ks.key, setA ks.files (secretPath name) ⟨nonce, ct, name⟩⟩

/-- `KeyStore.retrieve`: `None` when the file is absent and when
decryption/authentication fails. -/
def KeyStore.retrieve (ks : KeyStore) (name : String) : Option String :=
  match lookupA ks.files (secretPath name) with
  | none => none
  | some p => aesgcmDecrypt ks.key p.nonce p.ciphertext name

/-- `KeyStore.delete`: remove the file at the sanitized path if present. -/
def KeyStore.delete (ks : KeyStore) (name : String) : KeyStore × Bool :=
  match lookupA ks.files (secretPath name) with
  | some _ => (⟨ks.key, removeA ks.files (secretPath name)⟩, true)
  | none => (ks, false)

/-- `f.endswith(".enc")`. -/
def endsWithEnc (s : String) : Bool :=
  decide (s.data.drop (s.data.length - 4) = ".enc".data)

/-- `f[:-4]` — strip the `.enc` suffix. -/
def stripEnc (s : String) : String := ⟨s.data.take (s.data.length - 4)⟩

/-- Stable insertion into an ascending list of strings. -/
def insortStr (x : String) : List String → List String
  | [] => [x]
  | y :: rest => if strLtB y x then y :: insortStr x rest else x :: y :: rest

/-- Python `sorted` on strings. -/
def sortStrs : List String → List String
  | [] => []
  | x :: rest => insortStr x (sortStrs rest)

/-- `KeyStore.list_secrets`: names (not values) of the `.enc` entries. -/
def KeyStore.listSecrets (ks : KeyStore) : List String :=
  sortStrs (((ks.files.map Prod.fst).filter endsWithEnc).map stripEnc)

theorem strData_append (a b : String) : (a ++ b).data = a.data ++ b.data := rfl

theorem endsWithEnc_append (s : String) : endsWithEnc (s ++ ".enc") = true := by
  have h4 : (".enc" : String).data.length = 4 := rfl
  simp only [endsWithEnc, strData_append, List.length_append, h4,
    Nat.add_sub_cancel, decide_eq_true_eq]
  rw [List.drop_left]

theorem stripEnc_append (s : String) : stripEnc (s ++ ".enc") = s := by
  have h4 : (".enc" : String).data.length = 4 := rfl
  simp only [stripEnc, strData_append, List.length_append, h4, Nat.add_sub_cancel]
  rw [List.take_left]

theorem sortStrs_single (s : String) : sortStrs [s] = [s] := rfl

theorem secretPath_congr {n1 n2 : String} (h : sanitizeName n1 = sanitizeName n2) :
    secretPath n1 = secretPath n2 := by
  unfold secretPath; rw [h]

theorem KeyStore.store_key (ks : KeyStore) (nonce : List Nat) (n v : String) :
    (ks.store nonce n v).key = ks.key := rfl

/-- C1: for every secret name and value, `retrieve(name)` after
`store(name, value)` returns exactly `value`; and, starting from a store
with no entries, after `store(n1, v)` a `retrieve(n2)` under any name `n2`
whose bytes differ from `n1` fails closed and returns `none` — either the
sanitized path differs (no such file) or the stored entry's
associated-data binding of `n1` rejects decryption under `n2`. -/
theorem C1_secret_roundtrip_and_ad_binding
    (ks : KeyStore) (key nonce : List Nat) (n1 v : String) :
    ((ks.store nonce n1 v).retrieve n1 = some v) ∧
    (∀ n2 : String, n2 ≠ n1 →
      ((KeyStore.mk key []).store nonce n1 v).retrieve n2 = none) := by
  constructor
  · unfold KeyStore.store KeyStore.retrieve
    simp only
    rw [lookupA_setA_self]
    simp [aesgcmEncrypt, aesgcmDecrypt]
  · intro n2 hne
    unfold KeyStore.store KeyStore.retrieve
    simp only [setA, lookupA, List.nil_append]
    by_cases hp : secretPath n1 = secretPath n2
    · simp only [lookupA, if_pos hp]
      simp [aesgcmEncrypt, aesgcmDecrypt, Ne.symm hne]
    · simp [lookupA, hp]

theorem C1_witness :
    ((KeyStore.mk [1] []).store [2] "alpha" "s3cret").retrieve "alpha"
        = some "s3cret" ∧
    ((KeyStore.mk [1] []).store [2] "alpha" "s3cret").retrieve "beta" = none := by
  have h := C1_secret_roundtrip_and_ad_binding (KeyStore.mk [1] []) [1] [2]
    "alpha" "s3cret"
  exact ⟨h.1, h.2 "beta" (by decide)⟩

/-- C10: secret identity at the storage layer is the sanitized name: from
an empty store, `store(n1, v1)` files the payload under
`sanitize(n1) ++ ".enc"` with the original `n1` bound as associated data;
`list_secrets` reports the sanitized name; for a second, byte-distinct
name `n2` with the same sanitized form, `store(n2, v2)` overwrites the
single entry, after which `retrieve(n1)` returns `none` (associated-data
mismatch) while `retrieve(n2)` returns `v2`; and `delete(n2)` removes the
entry written under `n1`. -/
theorem C10_sanitized_name_is_storage_identity
    (key nonce1 nonce2 : List Nat) (n1 n2 v1 v2 : String)
    (hs : sanitizeName n1 = sanitizeName n2) (hne : n1 ≠ n2) :
    (((KeyStore.mk key []).store nonce1 n1 v1).files
        = [(sanitizeName n1 ++ ".enc",
            ⟨nonce1, ⟨key, nonce1, v1, n1⟩, n1⟩)]) ∧
    (((KeyStore.mk key []).store nonce1 n1 v1).listSecrets
        = [sanitizeName n1]) ∧
    ((((KeyStore.mk key []).store nonce1 n1 v1).store nonce2 n2 v2).files
        = [(sanitizeName n1 ++ ".enc",
            ⟨nonce2, ⟨key, nonce2, v2, n2⟩, n2⟩)]) ∧
    ((((KeyStore.mk key []).store nonce1 n1 v1).store nonce2 n2 v2).retrieve n1
        = none) ∧
    ((((KeyStore.mk key []).store nonce1 n1 v1).store nonce2 n2 v2).retrieve n2
        = some v2) ∧
    ((((KeyStore.mk key []).store nonce1 n1 v1).delete n2).2 = true ∧
      (((KeyStore.mk key []).store nonce1 n1 v1).delete n2).1.files = []) := by
  have hp : secretPath n1 = secretPath n2 := secretPath_congr hs
  have h1 : ((KeyStore.mk key []).store nonce1 n1 v1).files
      = [(secretPath n1, ⟨nonce1, ⟨key, nonce1, v1, n1⟩, n1⟩)] := rfl
  have h2 : (((KeyStore.mk key []).store nonce1 n1 v1).store nonce2 n2 v2).files
      = [(secretPath n1, ⟨nonce2, ⟨key, nonce2, v2, n2⟩, n2⟩)] := by
    show setA _ (secretPath n2) _ = _
    rw [h1, ← hp]
    simp [setA, lookupA, updateA, aesgcmEncrypt, KeyStore.store_key]
  refine ⟨h1, ?_, h2, ?_, ?_, ?_⟩
  · unfold KeyStore.listSecrets
    rw [h1]
    simp [endsWithEnc_append, stripEnc_append, sortStrs_single, secretPath]
  · unfold KeyStore.retrieve
    rw [h2]
    simp [lookupA, aesgcmDecrypt, Ne.symm hne]
  · unfold KeyStore.retrieve
    rw [h2, hp]
    simp [lookupA, aesgcmDecrypt, KeyStore.store_key]
  · unfold KeyStore.delete
    rw [h1, ← hp]
    simp [lookupA, removeA]

theorem C10_witness :
    (((KeyStore.mk [7] []).store [1] "API.KEY" "v1").listSecrets
        = ["api.key"]) ∧
    ((((KeyStore.mk [7] []).store [1] "API.KEY" "v1").store [2] "api.key" "v2").retrieve
        "API.KEY" = none) ∧
    ((((KeyStore.mk [7] []).store [1] "API.KEY" "v1").store [2] "api.key" "v2").retrieve
        "api.key" = some "v2") := by
  have h := C10_sanitized_name_is_storage_identity [7] [1] [2]
    "API.KEY" "api.key" "v1" "v2" (by decide) (by decide)
  exact ⟨h.2.1.trans (by decide), h.2.2.2.1, h.2.2.2.2.1⟩

/-! ## Memory store — `src/vault/memory_store.py`

Paths are modelled as lists of components rooted at the filesystem root.
`os.path.realpath` is modelled as lexical normalization (the store
directories contain no symlinks): `.` and empty components vanish, `..`
pops one component (and is a no-op at the filesystem root).  The check
`real.startswith(root_real + os.sep) or real == root_real` becomes a
component-wise prefix test.  Fernet is idealized as an injective,
authenticated construction whose tokens always carry the magic prefix
`gAAAAA` (modelled by the `.fernet` tag). -/

abbrev PathC := List String

/-- `s.split("/")` over character lists. -/
def splitCharList (sep : Char) : List Char → List (List Char)
  | [] => [[]]
  | c :: rest =>
    match splitCharList sep rest with
    | acc :: accs => if c = sep then [] :: acc :: accs else (c :: acc) :: accs
    | [] => [[]]

def splitSlash (s : String) : PathC :=
  (splitCharList '/' s.data).map fun l => ⟨l⟩

/-- `os.path.join(root, f)`: an absolute `f` discards `root`. -/
def osJoin (root : PathC) (f : String) : PathC :=
  if startsWithStr f "/" then splitSlash f else root ++ splitSlash f

/-- Lexical path normalization (`os.path.realpath` on symlink-free trees). -/
def normAux (acc : PathC) : PathC → PathC
  | [] => acc
  | c :: rest =>
    if c = "" ∨ c = "." then normAux acc rest
    else if c = ".." then normAux acc.dropLast rest
    else normAux (acc ++ [c]) rest

/-- `real.startswith(root + os.sep) or real == root`, component-wise. -/
def isUnder : PathC → PathC → Bool
  | [], _ => true
  | _ :: _, [] => false
  | a :: as, b :: bs => a = b && isUnder as bs

/-- `MemoryStore._resolve`: reject any resolution escaping the store root. -/
def resolvePath (root : PathC) (filename : String) : Option PathC :=
  let real := normAux [] (osJoin root filename)
  let rootReal := normAux [] root
  if isUnder rootReal real then some real else none

/-- Bytes on disk: either a Fernet token (key and plaintext of an
idealized authenticated encryption) or raw plaintext bytes. -/
inductive MBytes where
  | fernet (key : String) (plaintext : String)
  | plain (s : String)
deriving DecidableEq

/-- `raw.decode()` — the textual form of on-disk bytes; a Fernet token
renders as its (injectively encoded) base64 text starting with `gAAAAA`. -/
def MBytes.render : MBytes → String
  | .plain s => s
  | .fernet k pt => "gAAAAA" ++ k ++ ":" ++ pt

/-- `MemoryStore._encrypt` given the optional Fernet key. -/
def fernetEncrypt (key? : Option String) (content : String) : MBytes :=
  match key? with
  | some k => .fernet k content
  | none => .plain content

/-- `MemoryStore._decrypt` given the optional Fernet key: with a key,
bytes carrying the magic prefix are decrypted (`none` = `InvalidToken`
raised on key mismatch or magic-prefixed non-token bytes); everything
else passes through as plaintext. -/
def fernetDecrypt (key? : Option String) (raw : MBytes) : Option String :=
  match key? with
  | some k =>
    match raw with
    | .fernet k2 pt => if k2 = k then some pt else none
    | .plain s => if startsWithStr s "gAAAAA" then none else some s
  | none => some raw.render

inductive MemErr where
  | permissionDenied
  | decryptFailure
deriving DecidableEq

def exceptToSum {ε α : Type} : Except ε α → ε ⊕ α
  | .error e => .inl e
  | .ok a => .inr a

instance {ε α : Type} [DecidableEq ε] [DecidableEq α] :
    DecidableEq (Except ε α) := fun a b =>
  decidable_of_iff (exceptToSum a = exceptToSum b)
    (by cases a <;> cases b <;> simp [exceptToSum])

/-- `MemoryStore` state: root directory, optional Fernet key
(`self._fernet`), and the files below the root. -/
structure MemoryStore where
  root : PathC
  encKey : Option String
  fs : List (PathC × MBytes)
deriving DecidableEq

/-- `MemoryStore.read`: resolve (rejecting traversal), `None` for a
missing file, decrypt by magic prefix otherwise. -/
def MemoryStore.read (ms : MemoryStore) (filename : String) :
    Except MemErr (Option String) :=
  match resolvePath ms.root filename with
  | none => .error .permissionDenied
  | some path =>
    match lookupA ms.fs path with
    | none => .ok none
    | some raw =>
      match fernetDecrypt ms.encKey raw with
      | some s => .ok (some s)
      | none => .error .decryptFailure

/-- `MemoryStore.write`: `append` concatenates below the current content;
a `logs/` filename appends a dated separator even in overwrite mode;
otherwise the content replaces the file. -/
def MemoryStore.write (ms : MemoryStore) (filename content mode nowIso : String) :
    Except MemErr MemoryStore :=
  match resolvePath ms.root filename with
  | none => .error .permissionDenied
  | some path =>
    if mode = "append" then
      match ms.read filename with
      | .error e => .error e
      | .ok prior =>
        let full := prior.getD "" ++ "\n" ++ content ++ "\n"
        .ok ⟨ms.root, ms.encKey, setA ms.fs path (fernetEncrypt ms.encKey full)⟩
    else if startsWithStr filename "logs/" then
      match ms.read filename with
      | .error e => .error e
      | .ok prior =>
        let full := prior.getD "" ++ "\n---\n*" ++ nowIso ++ "*\n\n" ++ content ++ "\n"
        .ok ⟨ms.root, ms.encKey, setA ms.fs path (fernetEncrypt ms.encKey full)⟩
    else
      .ok ⟨ms.root, ms.encKey, setA ms.fs path (fernetEncrypt ms.encKey content)⟩

theorem fernetDecrypt_fernetEncrypt (key? : Option String) (s : String) :
    fernetDecrypt key? (fernetEncrypt key? s) = some s := by
  cases key? <;> simp [fernetEncrypt, fernetDecrypt, MBytes.render]

/-- C2: a path whose canonical resolution escapes the store root makes
both `read` and `write` fail with `PermissionDenied` (no content is
returned or written); a path resolving inside the root is served, and the
file it touches lies under the root.  The final conjunct characterises
rejection: it happens exactly when the normalized resolution of
`join(root, filename)` is not below the normalized root. -/
theorem C2_path_traversal_denied (ms : MemoryStore) (f : String) :
    (resolvePath ms.root f = none →
      (ms.read f = .error .permissionDenied ∧
       ∀ content mode nowIso,
         ms.write f content mode nowIso = .error .permissionDenied)) ∧
    (∀ real, resolvePath ms.root f = some real →
      (isUnder (normAux [] ms.root) real = true ∧
       ms.read f = (match lookupA ms.fs real with
         | none => .ok none
         | some raw =>
           match fernetDecrypt ms.encKey raw with
           | some s => .ok (some s)
           | none => .error .decryptFailure))) ∧
    (resolvePath ms.root f = none ↔
      isUnder (normAux [] ms.root) (normAux [] (osJoin ms.root f)) = false) := by
  refine ⟨?_, ?_, ?_⟩
  · intro h
    refine ⟨?_, ?_⟩
    · unfold MemoryStore.read
      rw [h]
    · intro content mode nowIso
      unfold MemoryStore.write
      rw [h]
  · intro real h
    have hu : isUnder (normAux [] ms.root) real = true := by
      unfold resolvePath at h
      by_cases hc : isUnder (normAux [] ms.root) (normAux [] (osJoin ms.root f)) = true
      · simp only [hc, if_pos] at h
        cases h
        exact hc
      · simp only [if_neg hc] at h
        exact Option.noConfusion h
    refine ⟨hu, ?_⟩
    unfold MemoryStore.read
    rw [h]
  · unfold resolvePath
    by_cases hc : isUnder (normAux [] ms.root) (normAux [] (osJoin ms.root f)) = true
    · simp [hc]
    · simp [hc, Bool.not_eq_true _ ▸ hc]

/-- The concrete store used by the C2 and C4 witnesses. -/
def msEx : MemoryStore := ⟨["vault", "memory"], some "master", []⟩

theorem C2_witness :
    msEx.read "../../etc/passwd" = .error .permissionDenied ∧
    msEx.write "../../etc/passwd" "x" "write" "t" = .error .permissionDenied := by
  have h := (C2_path_traversal_denied msEx "../../etc/passwd").1 (by decide)
  exact ⟨h.1, h.2 "x" "write" "t"⟩

/-- C4 (amended): for every document path *not under the `logs/`
namespace*, `read(path)` after `write(path, content)` in overwrite mode
returns exactly `content` — the previous content is replaced entirely.
(`MemoryStore.write` special-cases `logs/` filenames: even in overwrite
mode it appends a dated separator and the new content below the existing
content, so the original claim fails there; see the counterexample.) -/
theorem C4_overwrite_roundtrip_outside_logs
    (ms ms2 : MemoryStore) (f content nowIso : String)
    (hlogs : startsWithStr f "logs/" = false)
    (hw : ms.write f content "write" nowIso = .ok ms2) :
    ms2.read f = .ok (some content) := by
  unfold MemoryStore.write at hw
  cases hres : resolvePath ms.root f with
  | none =>
    rw [hres] at hw
    exact Except.noConfusion hw
  | some path =>
    rw [hres] at hw
    simp only [hlogs, Bool.false_eq_true, if_false,
      if_neg (show ¬("write" : String) = "append" from by decide)] at hw
    cases hw
    unfold MemoryStore.read
    rw [hres]
    simp only [lookupA_setA_self, fernetDecrypt_fernetEncrypt]

/-- The store state after the C4 witness write. -/
def msExW : MemoryStore :=
  ⟨["vault", "memory"], some "master",
    [(["vault", "memory", "notes.md"], .fernet "master" "hi")]⟩

theorem C4_witness :
    startsWithStr "notes.md" "logs/" = false ∧
    msEx.write "notes.md" "hi" "write" "t0" = .ok msExW ∧
    msExW.read "notes.md" = .ok (some "hi") := by
  refine ⟨by decide, by decide, ?_⟩
  exact C4_overwrite_roundtrip_outside_logs msEx msExW "notes.md" "hi" "t0"
    (by decide) (by decide)

/-- The store state after the C4 counterexample write: the `logs/` branch
of `MemoryStore.write` prepended the existing (empty) content and a dated
separator, although the mode was overwrite. -/
def msExL : MemoryStore :=
  ⟨["vault", "memory"], some "master",
    [(["vault", "memory", "logs", "2025-01-01.md"],
      .fernet "master" "\n---\n*2025-01-01T00:00:00+00:00*\n\nhello\n")]⟩

/-- C4 counterexample: on the dated log path `logs/2025-01-01.md`, a write
in overwrite mode followed by a read returns the separator-decorated
text, not exactly the written content — refuting the claim for the log
namespace it explicitly includes. -/
theorem C4_counterexample :
    msEx.write "logs/2025-01-01.md" "hello" "write" "2025-01-01T00:00:00+00:00"
        = .ok msExL ∧
    msExL.read "logs/2025-01-01.md"
        = .ok (some "\n---\n*2025-01-01T00:00:00+00:00*\n\nhello\n") ∧
    msExL.read "logs/2025-01-01.md" ≠ .ok (some "hello") := by
  refine ⟨by decide, by decide, by decide⟩

/-! ## Token authority — `src/vault/auth.py`

SHA-256 (`VaultAuth._hash`) is idealized as an injective encoding of the
hashed text; `hmac.compare_digest` is plain equality (constant-timeness is
not observable in this model).  `TokenRecord.expires` holds the parsed
ISO expiry as epoch seconds; `none` models both an absent expiry and an
unparseable one (`is_expired` treats both as not expired). -/

def sha256hex (s : String) : String := "sha256:" ++ s

structure TokenRecord where
  token_hash : String
  role : String
  agent : String
  label : String
  created : String
  expires : Option Int := none
deriving DecidableEq

/-- `TokenRecord.is_expired` at an explicit `now`. -/
def TokenRecord.isExpired (r : TokenRecord) (now : Int) : Bool :=
  match r.expires with
  | none => false
  | some e => decide (now > e)

structure RateLimiter where
  maxAttempts : Nat
  window : Int
  attempts : List (String × List Int)
deriving DecidableEq

/-- `RateLimiter.check`: prune entries that fell out of the sliding
window, fail when the pruned list is already at the limit, otherwise
record this attempt. -/
def RateLimiter.check (rl : RateLimiter) (now : Int) (key : String) :
    RateLimiter × Bool :=
  let prior := (lookupA rl.attempts key).getD []
  let pruned := prior.filter (fun t => decide (now - t < rl.window))
  if pruned.length ≥ rl.maxAttempts then
    (⟨rl.maxAttempts, rl.window, setA rl.attempts key pruned⟩, false)
  else
    (⟨rl.maxAttempts, rl.window, setA rl.attempts key (pruned ++ [now])⟩, true)

def minIntList : Int → List Int → Int
  | m, [] => m
  | m, t :: rest => minIntList (min m t) rest

/-- `RateLimiter.seconds_until_reset`. -/
def RateLimiter.secondsUntilReset (rl : RateLimiter) (now : Int) (key : String) :
    Int :=
  match lookupA rl.attempts key with
  | none => 0
  | some [] => 0
  | some (t :: ts) => max 1 (rl.window - (now - minIntList t ts))

structure VaultAuth where
  tokens : List TokenRecord
  limiter : RateLimiter
deriving DecidableEq

/-- The environment the auth code consults (`VAULT_ENV`, `VAULT_TOKEN`). -/
structure EnvConfig where
  vaultEnv : String
  vaultToken : String
deriving DecidableEq

/-- `VaultAuth.validate`: per-prefix rate limit, then (non-production
only) the env-token bypass, then constant-time hash lookup with an expiry
check. -/
def VaultAuth.validate (auth : VaultAuth) (env : EnvConfig) (now : Int)
    (nowIso token : String) : VaultAuth × Option TokenRecord :=
  let tokenKey := if token.data.length ≥ 8 then takeStr 8 token else token
  let res := auth.limiter.check now tokenKey
  let auth2 : VaultAuth := ⟨auth.tokens, res.1⟩
  if res.2 = false then (auth2, none)
  else if env.vaultEnv ≠ "production" ∧ env.vaultToken ≠ "" ∧ token = env.vaultToken then
    (auth2, some ⟨"env-bypass", "owner", "env", "env-token", nowIso, none⟩)
  else
    match auth.tokens.find? (fun t => decide (t.token_hash = sha256hex token)) with
    | none => (auth2, none)
    | some t => if t.isExpired now then (auth2, none) else (auth2, some t)

/-- `VaultAuth.revoke`: drop every record whose hash matches. -/
def VaultAuth.revoke (auth : VaultAuth) (token : String) : VaultAuth × Bool :=
  let keep := auth.tokens.filter (fun t => decide (t.token_hash ≠ sha256hex token))
  (⟨keep, auth.limiter⟩, decide (keep.length < auth.tokens.length))

/-! ## Request surface — `src/vault/vault_server.py` -/

structure HTTPErr where
  status : Nat
  detail : String
  retryAfter : Option Int
deriving DecidableEq

/-- `require_auth`: any `validate` failure becomes one uniform 401. -/
def requireAuth (auth : VaultAuth) (env : EnvConfig) (now : Int)
    (nowIso token : String) : Except HTTPErr (VaultAuth × TokenRecord) :=
  match auth.validate env now nowIso token with
  | (_, none) => .error ⟨401, "Invalid or expired vault token", none⟩
  | (a2, some r) => .ok (a2, r)

/-- `_check_ip_rate_limit` — present in the source, but not attached as a
dependency to any route. -/
def checkIpRateLimit (auth : VaultAuth) (now : Int) (clientIp : String) :
    VaultAuth × Option HTTPErr :=
  let key := "ip:" ++ clientIp
  let res := auth.limiter.check now key
  if res.2 = false then
    (⟨auth.tokens, res.1⟩,
      some ⟨429, "Too many authentication attempts. Try again later.",
        some (res.1.secondsUntilReset now key)⟩)
  else (⟨auth.tokens, res.1⟩, none)

/-- In production mode `validate` reduces to: rate-limit gate, then hash
lookup with expiry check — the bypass arm is unreachable. -/
theorem validate_snd_production (auth : VaultAuth) (env : EnvConfig) (now : Int)
    (nowIso token : String) (hprod : env.vaultEnv = "production") :
    (auth.validate env now nowIso token).2 =
      (if (auth.limiter.check now
            (if token.data.length ≥ 8 then takeStr 8 token else token)).2 = false
       then none
       else
         match auth.tokens.find? (fun t => decide (t.token_hash = sha256hex token)) with
         | none => none
         | some t => if t.isExpired now then none else some t) := by
  have hc2 : ¬(env.vaultEnv ≠ "production" ∧ env.vaultToken ≠ "" ∧
      token = env.vaultToken) := fun h => h.1 hprod
  simp only [VaultAuth.validate]
  by_cases hr : (auth.limiter.check now
      (if token.data.length ≥ 8 then takeStr 8 token else token)).2 = false
  · rw [if_pos hr, if_pos hr]
  · rw [if_neg hr, if_neg hr, if_neg hc2]
    cases hfind : auth.tokens.find? (fun t => decide (t.token_hash = sha256hex token)) with
    | none => rfl
    | some t =>
      by_cases hex : t.isExpired now
      · simp only [hex, if_true]
      · simp only [hex, Bool.false_eq_true, if_false]

/-- The rate-limit verdict of `RateLimiter.check`. -/
theorem check_snd (rl : RateLimiter) (now : Int) (key : String) :
    (rl.check now key).2 =
      !decide ((((lookupA rl.attempts key).getD []).filter
          (fun t => decide (now - t < rl.window))).length ≥ rl.maxAttempts) := by
  unfold RateLimiter.check
  by_cases h : (((lookupA rl.attempts key).getD []).filter
      (fun t => decide (now - t < rl.window))).length ≥ rl.maxAttempts
  · rw [if_pos h]; simp [h]
  · rw [if_neg h]; simp [h]

/-- C6: in production mode, once `revoke(token)` has removed the matching
records, every subsequent `validate(token)` on the resulting token list
returns `none`; and `validate(token)` returns `none` whenever the stored
record found for the token carries an expiry in the past, even if the
token was never revoked. -/
theorem C6_revoked_and_expired_tokens_fail_validate
    (auth auth2 : VaultAuth) (env : EnvConfig) (now : Int) (nowIso token : String)
    (hprod : env.vaultEnv = "production") :
    (auth2.tokens = ((auth.revoke token).1).tokens →
      (auth2.validate env now nowIso token).2 = none) ∧
    (∀ t e,
      auth.tokens.find? (fun r => decide (r.token_hash = sha256hex token)) = some t →
      t.expires = some e → now > e →
      (auth.validate env now nowIso token).2 = none) := by
  constructor
  · intro htoks
    have hfind : auth2.tokens.find?
        (fun t => decide (t.token_hash = sha256hex token)) = none := by
      apply List.find?_eq_none.mpr
      intro x hx
      rw [htoks] at hx
      have hmem := (List.mem_filter.mp hx).2
      simp only [decide_eq_true_eq] at hmem ⊢
      exact hmem
    rw [validate_snd_production auth2 env now nowIso token hprod, hfind]
    by_cases hr : (auth2.limiter.check now
        (if token.data.length ≥ 8 then takeStr 8 token else token)).2 = false
    · rw [if_pos hr]
    · rw [if_neg hr]
  · intro t e hfind hexp hlate
    rw [validate_snd_production auth env now nowIso token hprod, hfind]
    have hex : t.isExpired now = true := by
      unfold TokenRecord.isExpired
      rw [hexp]
      simp [hlate]
    by_cases hr : (auth.limiter.check now
        (if token.data.length ≥ 8 then takeStr 8 token else token)).2 = false
    · rw [if_pos hr]
    · rw [if_neg hr]
      simp only [hex, if_true]

def authC6 : VaultAuth :=
  ⟨[⟨sha256hex "vtok_abc12345", "owner", "a", "l", "c", none⟩,
    ⟨sha256hex "vtok_exp12345", "owner", "a", "l", "c", some 100⟩],
   ⟨10, 60, []⟩⟩

def envProd : EnvConfig := ⟨"production", ""⟩

theorem C6_witness :
    (((authC6.revoke "vtok_abc12345").1).validate envProd 1000 "t" "vtok_abc12345").2
        = none ∧
    (authC6.validate envProd 1000 "t" "vtok_exp12345").2 = none := by
  constructor
  · exact (C6_revoked_and_expired_tokens_fail_validate authC6
      ((authC6.revoke "vtok_abc12345").1) envProd 1000 "t" "vtok_abc12345"
      (by decide)).1 rfl
  · exact (C6_revoked_and_expired_tokens_fail_validate authC6 authC6 envProd 1000
      "t" "vtok_exp12345" (by decide)).2
      ⟨sha256hex "vtok_exp12345", "owner", "a", "l", "c", some 100⟩ 100
      (by decide) rfl (by decide)

/-- C7: with `N` attempts for the token's prefix already recorded inside
the sliding window, the next validation attempt fails even when the
presented token is valid; and an attempt made once the window has elapsed
past every recorded attempt succeeds again for a valid (stored,
unexpired) token. -/
theorem C7_rate_limit_window
    (auth : VaultAuth) (env : EnvConfig) (now now2 : Int) (nowIso token : String)
    (prior : List Int)
    (hprod : env.vaultEnv = "production")
    (hkey : lookupA auth.limiter.attempts
        (if token.data.length ≥ 8 then takeStr 8 token else token) = some prior) :
    ((prior.length ≥ auth.limiter.maxAttempts) →
      (∀ t ∈ prior, now - t < auth.limiter.window) →
      (auth.validate env now nowIso token).2 = none) ∧
    ((∀ t ∈ prior, now2 - t ≥ auth.limiter.window) →
      0 < auth.limiter.maxAttempts →
      ∀ rec, auth.tokens.find?
          (fun r => decide (r.token_hash = sha256hex token)) = some rec →
        rec.isExpired now2 = false →
        (auth.validate env now2 nowIso token).2 = some rec) := by
  constructor
  · intro hfull hwithin
    have hfilter : prior.filter (fun t => decide (now - t < auth.limiter.window))
        = prior :=
      List.filter_eq_self.mpr (fun t ht => by simpa using hwithin t ht)
    have hr : (auth.limiter.check now
        (if token.data.length ≥ 8 then takeStr 8 token else token)).2 = false := by
      rw [check_snd, hkey]
      simp only [Option.getD_some, hfilter]
      simp [hfull]
    rw [validate_snd_production auth env now nowIso token hprod, if_pos hr]
  · intro hgone hpos rec hfind hexp
    have hfilter : prior.filter (fun t => decide (now2 - t < auth.limiter.window))
        = [] := by
      rw [List.filter_eq_nil_iff]
      intro t ht
      simp only [decide_eq_true_eq]
      exact not_lt.mpr (hgone t ht)
    have hr : (auth.limiter.check now2
        (if token.data.length ≥ 8 then takeStr 8 token else token)).2 = true := by
      rw [check_snd, hkey]
      simp only [Option.getD_some, hfilter]
      simp [Nat.not_le.mpr hpos]
    rw [validate_snd_production auth env now2 nowIso token hprod,
      if_neg (fun hc => Bool.noConfusion (hr.symm.trans hc)), hfind]
    simp only [hexp, Bool.false_eq_true, if_false]

def authC7 : VaultAuth :=
  ⟨[⟨sha256hex "vtok_lim12345", "owner", "a", "l", "c", none⟩],
   ⟨10, 60, [("vtok_lim", [950, 951, 952, 953, 954, 955, 956, 957, 958, 959])]⟩⟩

theorem C7_witness :
    (authC7.validate envProd 1000 "t" "vtok_lim12345").2 = none ∧
    (authC7.validate envProd 1020 "t" "vtok_lim12345").2
        = some ⟨sha256hex "vtok_lim12345", "owner", "a", "l", "c", none⟩ := by
  have h := C7_rate_limit_window authC7 envProd 1000 1020 "t" "vtok_lim12345"
    [950, 951, 952, 953, 954, 955, 956, 957, 958, 959] (by decide) (by decide)
  exact ⟨h.1 (by decide) (by decide),
    h.2 (by decide) (by decide)
      ⟨sha256hex "vtok_lim12345", "owner", "a", "l", "c", none⟩ (by decide) (by decide)⟩

/-- C8: when `VAULT_ENV` is `"production"`, the env-token bypass never
activates: `validate` can only return a record that is stored in the
token list, whose hash matches the presented token, and which is not
expired — whatever bypass token the environment carries. -/
theorem C8_production_disables_bypass
    (auth : VaultAuth) (env : EnvConfig) (now : Int) (nowIso token : String)
    (r : TokenRecord)
    (hprod : env.vaultEnv = "production")
    (hv : (auth.validate env now nowIso token).2 = some r) :
    r ∈ auth.tokens ∧ r.token_hash = sha256hex token ∧ r.isExpired now = false := by
  rw [validate_snd_production auth env now nowIso token hprod] at hv
  by_cases hr : (auth.limiter.check now
      (if token.data.length ≥ 8 then takeStr 8 token else token)).2 = false
  · rw [if_pos hr] at hv
    exact Option.noConfusion hv
  · rw [if_neg hr] at hv
    cases hfind : auth.tokens.find?
        (fun t => decide (t.token_hash = sha256hex token)) with
    | none =>
      rw [hfind] at hv
      exact Option.noConfusion hv
    | some t =>
      rw [hfind] at hv
      by_cases hex : t.isExpired now
      · simp only [hex, if_true] at hv
        exact Option.noConfusion hv
      · simp only [hex, Bool.false_eq_true, if_false, Option.some.injEq] at hv
        subst hv
        refine ⟨List.mem_of_find?_eq_some hfind, ?_, by simpa using hex⟩
        have := List.find?_some hfind
        simpa using this

def authC8 : VaultAuth :=
  ⟨[⟨sha256hex "vtok_own12345", "owner", "agent", "lbl", "c", none⟩], ⟨10, 60, []⟩⟩

/-- Bypass token configured in the environment, but mode is production. -/
def envC8 : EnvConfig := ⟨"production", "vtok_own12345"⟩

theorem C8_witness :
    (⟨sha256hex "vtok_own12345", "owner", "agent", "lbl", "c", none⟩ : TokenRecord)
        ∈ authC8.tokens ∧
    (⟨sha256hex "vtok_own12345", "owner", "agent", "lbl", "c", none⟩ : TokenRecord).token_hash
        = sha256hex "vtok_own12345" ∧
    (⟨sha256hex "vtok_own12345", "owner", "agent", "lbl", "c", none⟩ : TokenRecord).isExpired 5
        = false :=
  C8_production_disables_bypass authC8 envC8 5 "t" "vtok_own12345"
    ⟨sha256hex "vtok_own12345", "owner", "agent", "lbl", "c", none⟩
    (by decide) (by decide)

/-- C9 (amended): every `validate` failure — invalid token, expired
token, or a rate-limited prefix — surfaces through `require_auth` as one
and the same generic 401 response, carrying neither the cause nor a
retry-after duration.  The IP-based rate-limit helper would answer 429
with a `Retry-After` duration, but it is not attached to any route in the
source, so rate-limit exhaustion at the request surface does not signal a
retry-after to the caller (see the counterexample). -/
theorem C9_uniform_generic_auth_failure
    (auth : VaultAuth) (env : EnvConfig) (now : Int) (nowIso token ip : String) :
    ((auth.validate env now nowIso token).2 = none →
      requireAuth auth env now nowIso token
        = .error ⟨401, "Invalid or expired vault token", none⟩) ∧
    ((checkIpRateLimit auth now ip).2 = none ∨
      (checkIpRateLimit auth now ip).2
        = some ⟨429, "Too many authentication attempts. Try again later.",
            some (((auth.limiter.check now ("ip:" ++ ip)).1).secondsUntilReset
              now ("ip:" ++ ip))⟩) := by
  constructor
  · intro hnone
    unfold requireAuth
    cases hv : auth.validate env now nowIso token with
    | mk a2 r =>
      rw [hv] at hnone
      simp only at hnone
      subst hnone
      rfl
  · unfold checkIpRateLimit
    by_cases hb : (auth.limiter.check now ("ip:" ++ ip)).2 = false
    · right
      rw [if_pos hb]
    · left
      rw [if_neg hb]

/-- A valid token whose prefix is rate-limited: the request surface
answers with the same generic 401 as for an invalid or an expired token,
and carries no retry-after — refuting the original claim that rate-limit
exhaustion additionally signals a retry-after duration to the caller. -/
theorem C9_counterexample :
    requireAuth ⟨[], ⟨10, 60, []⟩⟩ envProd 1000 "t" "vtok_nope12345"
        = .error ⟨401, "Invalid or expired vault token", none⟩ ∧
    requireAuth authC6 envProd 1000 "t" "vtok_exp12345"
        = .error ⟨401, "Invalid or expired vault token", none⟩ ∧
    requireAuth authC7 envProd 1000 "t" "vtok_lim12345"
        = .error ⟨401, "Invalid or expired vault token", none⟩ := by
  refine ⟨by decide, by decide, by decide⟩

theorem C9_witness :
    requireAuth ⟨[], ⟨10, 60, []⟩⟩ envProd 1000 "t" "vtok_miss12345"
        = .error ⟨401, "Invalid or expired vault token", none⟩ :=
  (C9_uniform_generic_auth_failure ⟨[], ⟨10, 60, []⟩⟩ envProd 1000 "t"
    "vtok_miss12345" "203.0.113.7").1 (by decide)

/-! ## Access gate — the `/vault/query` route of `src/vault/vault_server.py`

The route first increments the `queries` counter, re-reads the counters
ledger (so the current query is counted), and then — once the 14-day
grace period has elapsed — rejects with a structured 429 when
`approved / max(queries, 1) < 0.05 and queries > 50`.  Python's float
ratio is modelled as the exact fraction `approved / max(queries, 1)`,
with comparisons decided by integer cross-multiplication; clock readings
are day-granularity integers (`(now - created).days`). -/

/-- The counters ledger `staging/stats.json`. -/
structure StatsData where
  queries : Nat
  staged : Nat
  approved : Nat
deriving DecidableEq

/-- An exact non-negative fraction `num / den`. -/
structure FracVal where
  num : Nat
  den : Nat
deriving DecidableEq

/-- `r < a / b` by cross-multiplication (`b, den > 0` in all uses). -/
def FracVal.ltFrac (r : FracVal) (a b : Nat) : Bool :=
  decide (r.num * b < a * r.den)

/-- `approved / max(queries, 1)` as an exact fraction. -/
def gateRatioOf (stats : StatsData) : FracVal :=
  ⟨stats.approved, max stats.queries 1⟩

/-- `_is_grace_active`: `(now - created).days < 14`. -/
def isGraceActive (createdDay nowDay : Int) : Bool :=
  decide (nowDay - createdDay < 14)

inductive QueryOutcome where
  | throttled (currentRate : FracVal) (requiredNum requiredDen : Nat)
  | served
deriving DecidableEq

/-- The ratio-enforcement prelude of the `query` route: increment
`queries`, then reject with the structured throttling response (carrying
the current ratio and the required ratio 0.05) when the grace period has
elapsed, the ratio is below 0.05 and the recorded queries exceed 50;
otherwise the query proceeds to the engine. -/
def queryGate (stats : StatsData) (createdDay nowDay : Int) :
    StatsData × QueryOutcome :=
  let stats2 : StatsData := ⟨stats.queries + 1, stats.staged, stats.approved⟩
  if isGraceActive createdDay nowDay then (stats2, .served)
  else
    let rv := gateRatioOf stats2
    if rv.ltFrac 1 20 && decide (stats2.queries > 50) then
      (stats2, .throttled rv 1 20)
    else (stats2, .served)

/-- C3 counterexample: with the grace period elapsed, 60 recorded queries
(> 50) and 4 approved contributions the ratio is 1/15 ≈ 0.067 < 0.10, so
the original claim demands a throttling rejection — but the code's gate
threshold is 0.05, and the query is served. -/
theorem C3_counterexample :
    isGraceActive 0 20 = false ∧
    (59 + 1 > 50) ∧
    (gateRatioOf ⟨60, 0, 4⟩).ltFrac 1 10 = true ∧
    (queryGate ⟨59, 0, 4⟩ 0 20).2 = QueryOutcome.served := by
  refine ⟨by decide, by decide, by decide, by decide⟩

/-- C3 (amended): for every query made after the grace period has elapsed
and with more than 50 recorded queries (counting the increment this query
itself makes): if `approved / max(queries, 1)` is below 0.05 the query is
rejected with a structured throttling response carrying the current
ratio, and if the ratio is at least 0.05 the query is served. -/
theorem C3_gate_threshold_five_percent
    (stats : StatsData) (createdDay nowDay : Int)
    (hgrace : isGraceActive createdDay nowDay = false)
    (hq : stats.queries + 1 > 50) :
    ((gateRatioOf ⟨stats.queries + 1, stats.staged, stats.approved⟩).ltFrac 1 20
        = true →
      (queryGate stats createdDay nowDay).2
        = QueryOutcome.throttled
            (gateRatioOf ⟨stats.queries + 1, stats.staged, stats.approved⟩) 1 20) ∧
    ((gateRatioOf ⟨stats.queries + 1, stats.staged, stats.approved⟩).ltFrac 1 20
        = false →
      (queryGate stats createdDay nowDay).2 = QueryOutcome.served) := by
  constructor
  · intro hlt
    unfold queryGate
    rw [hgrace]
    simp only [Bool.false_eq_true, if_false, hlt, true_and, Bool.true_and]
    rw [if_pos (by simp [hq])]
  · intro hge
    unfold queryGate
    rw [hgrace]
    simp only [Bool.false_eq_true, if_false, hge, Bool.false_and]

theorem C3_witness :
    (queryGate ⟨60, 0, 1⟩ 0 20).2
        = QueryOutcome.throttled (gateRatioOf ⟨61, 0, 1⟩) 1 20 ∧
    (queryGate ⟨60, 0, 10⟩ 0 20).2 = QueryOutcome.served := by
  constructor
  · exact (C3_gate_threshold_five_percent ⟨60, 0, 1⟩ 0 20 (by decide) (by decide)).1
      (by decide)
  · exact (C3_gate_threshold_five_percent ⟨60, 0, 10⟩ 0 20 (by decide) (by decide)).2
      (by decide)

/-! ## Query engine — `src/vault/query_engine.py`

`_deduplicate` pools hits keyed by a content fingerprint —
`sha256(content.strip().lower())`, idealized here as the normalized text
itself (injective model of a collision-free hash).  Python dicts preserve
insertion order and keep a key's position on update, which is exactly
`setA`'s behaviour; `sorted(..., key=_ts_sort_key, reverse=True)` is a
stable descending sort, modelled by a stable insertion sort. -/

structure QResult where
  content : String
  file : String
  line : Nat
  source : String
  source_type : String
  timestamp : String
deriving DecidableEq

/-- `_ts_sort_key` (every result built by the engine carries a timestamp). -/
def tsKey (r : QResult) : String := r.timestamp

/-- The deduplication fingerprint of a content string. -/
def contentKey (s : String) : String := lowerStr (stripStr s)

/-- `_ts_sort_key(item) > _ts_sort_key(existing)` — Python string `>`. -/
def tsAfter (item existing : QResult) : Bool := strLtB (tsKey existing) (tsKey item)

/-- The loop of `_deduplicate`: `seen` is the insertion-ordered dict
`content_key → best result`, `conf` the accumulated `conflicts`. -/
def dedupAux : List QResult → List (String × QResult) → List QResult →
    List (String × QResult) × List QResult
  | [], seen, conf => (seen, conf)
  | item :: rest, seen, conf =>
    let key := contentKey item.content
    match lookupA seen key with
    | none => dedupAux rest (seen ++ [(key, item)]) conf
    | some existing =>
      if tsAfter item existing then
        dedupAux rest (updateA seen key item) (conf ++ [existing])
      else
        dedupAux rest seen (conf ++ [item])

/-- Stable insertion for the descending-by-timestamp sort: `x` stays in
front unless the head is strictly more recent. -/
def insertByTs (x : QResult) : List QResult → List QResult
  | [] => [x]
  | y :: rest =>
    if strLtB (tsKey x) (tsKey y) then y :: insertByTs x rest else x :: y :: rest

/-- `sorted(seen.values(), key=_ts_sort_key, reverse=True)` (stable). -/
def sortByTsDesc : List QResult → List QResult
  | [] => []
  | x :: rest => insertByTs x (sortByTsDesc rest)

/-- `_deduplicate`: primaries (one per fingerprint, most recent, sorted
descending by timestamp) and the surfaced conflicts. -/
def deduplicate (results : List QResult) : List QResult × List QResult :=
  let sc := dedupAux results [] []
  (sortByTsDesc (sc.1.map Prod.snd), sc.2)

structure QueryResponse where
  results : List QResult
  also_found : List QResult
  total_hits : Nat
deriving DecidableEq

/-- The merge tail of `QueryEngine.query`: pool → `_deduplicate` → cap
primaries at 20 and conflicts at 10. -/
def assembleResponse (allResults : List QResult) : QueryResponse :=
  let pr := deduplicate allResults
  ⟨pr.1.take 20, pr.2.take 10, allResults.length⟩

/-- The per-fingerprint survivor: fold the colliding results in pool
order, replacing the incumbent only when the newcomer's timestamp is
strictly more recent (so ties keep the first-seen). -/
def foldPickFrom : Option QResult → List QResult → Option QResult
  | b, [] => b
  | b, x :: xs =>
    foldPickFrom
      (some (match b with
             | none => x
             | some bb => if tsAfter x bb then x else bb)) xs

theorem lookupA_append {κ α : Type} [DecidableEq κ]
    (m l : List (κ × α)) (key : κ) :
    lookupA (m ++ l) key =
      (match lookupA m key with
       | some v => some v
       | none => lookupA l key) := by
  induction m with
  | nil => simp [lookupA]
  | cons p rest ih =>
    obtain ⟨k, v⟩ := p
    by_cases hk : k = key
    · simp [lookupA, hk]
    · rw [List.cons_append]
      simp only [lookupA, if_neg hk]
      exact ih

theorem lookupA_updateA_ne {κ α : Type} [DecidableEq κ]
    (m : List (κ × α)) (key k2 : κ) (a : α) (hne : k2 ≠ key) :
    lookupA (updateA m key a) k2 = lookupA m k2 := by
  induction m with
  | nil => simp [lookupA, updateA]
  | cons p rest ih =>
    obtain ⟨k, v⟩ := p
    by_cases hk : k = key
    · subst hk
      simp [lookupA, updateA, Ne.symm hne]
    · simp only [updateA, if_neg hk, lookupA]
      by_cases hk2 : k = k2 <;> simp [hk2, ih]

theorem insertByTs_perm (x : QResult) (l : List QResult) :
    List.Perm (insertByTs x l) (x :: l) := by
  induction l with
  | nil => exact List.Perm.refl _
  | cons y rest ih =>
    unfold insertByTs
    by_cases h : strLtB (tsKey x) (tsKey y)
    · rw [if_pos h]
      exact (ih.cons y).trans (List.Perm.swap x y rest)
    · rw [if_neg h]

theorem sortByTsDesc_perm (l : List QResult) :
    List.Perm (sortByTsDesc l) l := by
  induction l with
  | nil => exact List.Perm.refl _
  | cons x rest ih =>
    exact (insertByTs_perm x (sortByTsDesc rest)).trans (ih.cons x)

theorem updateA_snd_perm (m : List (String × QResult)) (key : String)
    (a existing : QResult) (h : lookupA m key = some existing) :
    List.Perm ((updateA m key a).map Prod.snd ++ [existing])
      (m.map Prod.snd ++ [a]) := by
  induction m with
  | nil => simp [lookupA] at h
  | cons p rest ih =>
    obtain ⟨k, v⟩ := p
    by_cases hk : k = key
    · simp only [lookupA, if_pos hk, Option.some.injEq] at h
      subst h
      simp only [updateA, if_pos hk, List.map_cons, List.cons_append]
      have p1 : List.Perm (a :: (rest.map Prod.snd ++ [v]))
          (a :: (v :: rest.map Prod.snd)) :=
        List.Perm.cons a (@List.perm_append_comm _ (rest.map Prod.snd) [v])
      have p2 : List.Perm (a :: v :: rest.map Prod.snd)
          (v :: a :: rest.map Prod.snd) := List.Perm.swap v a _
      have p3 : List.Perm (v :: (a :: rest.map Prod.snd))
          (v :: (rest.map Prod.snd ++ [a])) :=
        List.Perm.cons v (@List.perm_append_comm _ [a] (rest.map Prod.snd))
      exact (p1.trans p2).trans p3
    · simp only [lookupA, if_neg hk] at h
      simp only [updateA, if_neg hk, List.map_cons, List.cons_append]
      exact (ih h).cons v

theorem dedupAux_lookup (rest : List QResult) :
    ∀ (seen : List (String × QResult)) (conf : List QResult) (k : String),
    lookupA (dedupAux rest seen conf).1 k =
      foldPickFrom (lookupA seen k)
        (rest.filter (fun r => decide (contentKey r.content = k))) := by
  induction rest with
  | nil => intro seen conf k; rfl
  | cons item rest2 ih =>
    intro seen conf k
    simp only [dedupAux]
    cases hl : lookupA seen (contentKey item.content) with
    | none =>
      rw [ih]
      by_cases hk : contentKey item.content = k
      · subst hk
        rw [List.filter_cons_of_pos (by simp), lookupA_append, hl]
        simp [lookupA, foldPickFrom]
      · rw [lookupA_append]
        rw [List.filter_cons_of_neg (by simp [hk])]
        cases hsk : lookupA seen k with
        | none => simp [lookupA, hk]
        | some v => rfl
    | some existing =>
      dsimp only
      by_cases hts : tsAfter item existing
      · rw [if_pos hts, ih]
        by_cases hk : contentKey item.content = k
        · subst hk
          rw [lookupA_updateA_self, List.filter_cons_of_pos (by simp), hl]
          simp [foldPickFrom, hts]
        · rw [lookupA_updateA_ne _ _ _ _ (fun h => hk h.symm)]
          rw [List.filter_cons_of_neg (by simp [hk])]
      · rw [if_neg hts, ih]
        by_cases hk : contentKey item.content = k
        · subst hk
          rw [List.filter_cons_of_pos (by simp), hl]
          simp [foldPickFrom, hts]
        · rw [List.filter_cons_of_neg (by simp [hk])]

theorem lookupA_none_not_mem {κ α : Type} [DecidableEq κ]
    (m : List (κ × α)) (k : κ) (h : lookupA m k = none) :
    k ∉ m.map Prod.fst := by
  induction m with
  | nil => simp
  | cons p rest ih =>
    obtain ⟨k1, v⟩ := p
    by_cases hk : k1 = k
    · simp [lookupA, hk] at h
    · simp only [lookupA, if_neg hk] at h
      simp only [List.map_cons, List.mem_cons]
      rintro (rfl | hmem)
      · exact hk rfl
      · exact ih h hmem

theorem updateA_fst {κ α : Type} [DecidableEq κ]
    (m : List (κ × α)) (key : κ) (a : α) :
    (updateA m key a).map Prod.fst = m.map Prod.fst := by
  induction m with
  | nil => rfl
  | cons p rest ih =>
    obtain ⟨k, v⟩ := p
    by_cases hk : k = key <;> simp [updateA, hk, ih]

theorem updateA_mem {κ α : Type} [DecidableEq κ]
    (m : List (κ × α)) (key : κ) (a : α) (q : κ × α)
    (hq : q ∈ updateA m key a) : q ∈ m ∨ q = (key, a) := by
  induction m with
  | nil => simp [updateA] at hq
  | cons p rest ih =>
    obtain ⟨k, v⟩ := p
    by_cases hk : k = key
    · subst hk
      simp only [updateA, if_pos rfl] at hq
      cases hq with
      | head => right; rfl
      | tail _ h => left; exact List.mem_cons_of_mem _ h
    · simp only [updateA, if_neg hk] at hq
      cases hq with
      | head => left; exact List.mem_cons_self _ _
      | tail _ h =>
        cases ih h with
        | inl hin => left; exact List.mem_cons_of_mem _ hin
        | inr heq => right; exact heq

/-- The dict built by `dedupAux` keeps each value under its own content
fingerprint, with no duplicate keys. -/
theorem dedupAux_invariants (rest : List QResult) :
    ∀ (seen : List (String × QResult)) (conf : List QResult),
    (∀ p ∈ seen, contentKey p.2.content = p.1) →
    ((seen.map Prod.fst).Nodup) →
    ((∀ p ∈ (dedupAux rest seen conf).1, contentKey p.2.content = p.1) ∧
      (((dedupAux rest seen conf).1.map Prod.fst).Nodup)) := by
  induction rest with
  | nil => intro seen conf hkc hnd; exact ⟨hkc, hnd⟩
  | cons item rest2 ih =>
    intro seen conf hkc hnd
    simp only [dedupAux]
    cases hl : lookupA seen (contentKey item.content) with
    | none =>
      apply ih
      · intro p hp
        rcases List.mem_append.mp hp with hin | hin
        · exact hkc p hin
        · simp only [List.mem_singleton] at hin
          subst hin
          rfl
      · rw [List.map_append]
        simp only [List.map_cons, List.map_nil]
        rw [List.nodup_append]
        refine ⟨hnd, List.nodup_singleton _, ?_⟩
        intro x hx hx2
        simp only [List.mem_singleton] at hx2
        subst hx2
        exact lookupA_none_not_mem seen _ hl hx
    | some existing =>
      dsimp only
      by_cases hts : tsAfter item existing
      · rw [if_pos hts]
        apply ih
        · intro p hp
          rcases updateA_mem seen _ item p hp with hin | rfl
          · exact hkc p hin
          · rfl
        · rw [updateA_fst]
          exact hnd
      · rw [if_neg hts]
        exact ih seen (conf ++ [item]) hkc hnd

/-- With distinct keys, filtering the dict's values by a fingerprint
recovers exactly the entry stored under that fingerprint. -/
theorem values_filter_eq_lookup (m : List (String × QResult)) (k : String)
    (hkc : ∀ p ∈ m, contentKey p.2.content = p.1)
    (hnd : (m.map Prod.fst).Nodup) :
    (m.map Prod.snd).filter (fun r => decide (contentKey r.content = k)) =
      (lookupA m k).toList := by
  induction m with
  | nil => rfl
  | cons p rest ih =>
    obtain ⟨k1, v⟩ := p
    have h1 : contentKey v.content = k1 := hkc (k1, v) (List.mem_cons_self _ _)
    simp only [List.map_cons, List.nodup_cons] at hnd
    by_cases hk : k1 = k
    · subst hk
      simp only [List.map_cons, List.filter_cons]
      rw [if_pos (by simp [h1]), lookupA]
      rw [if_pos rfl]
      simp only [Option.toList_some]
      congr 1
      rw [List.filter_eq_nil_iff]
      intro r hr
      rcases List.mem_map.mp hr with ⟨q, hq, rfl⟩
      have hkq := hkc q (List.mem_cons_of_mem _ hq)
      have : q.1 ≠ k1 := by
        intro hq1
        exact hnd.1 (hq1 ▸ List.mem_map_of_mem Prod.fst hq)
      simp [hkq, this]
    · simp only [List.map_cons, List.filter_cons]
      rw [if_neg (by simp [h1, hk]), lookupA, if_neg hk]
      exact ih (fun q hq => hkc q (List.mem_cons_of_mem _ hq)) hnd.2

theorem perm_snoc_shift (A C R : List QResult) (x : QResult) :
    List.Perm (((A ++ [x]) ++ C) ++ R) ((A ++ C) ++ (x :: R)) := by
  have h1 : ((A ++ [x]) ++ C) ++ R = A ++ ([x] ++ (C ++ R)) := by
    simp [List.append_assoc]
  have h2 : (A ++ C) ++ (x :: R) = A ++ (C ++ (x :: R)) := by
    simp [List.append_assoc]
  rw [h1, h2]
  apply List.Perm.append_left A
  exact (@List.perm_middle _ x C R).symm

/-- Nothing is lost or duplicated by `_deduplicate`'s loop: the dict's
values together with the conflicts are a permutation of everything
processed. -/
theorem dedupAux_perm (rest : List QResult) :
    ∀ (seen : List (String × QResult)) (conf : List QResult),
    List.Perm
      ((dedupAux rest seen conf).1.map Prod.snd ++ (dedupAux rest seen conf).2)
      ((seen.map Prod.snd ++ conf) ++ rest) := by
  induction rest with
  | nil =>
    intro seen conf
    simp [dedupAux]
  | cons item rest2 ih =>
    intro seen conf
    simp only [dedupAux]
    cases hl : lookupA seen (contentKey item.content) with
    | none =>
      refine (ih (seen ++ [(contentKey item.content, item)]) conf).trans ?_
      rw [List.map_append]
      exact perm_snoc_shift (seen.map Prod.snd) conf rest2 item
    | some existing =>
      dsimp only
      by_cases hts : tsAfter item existing
      · rw [if_pos hts]
        refine (ih (updateA seen (contentKey item.content) item)
          (conf ++ [existing])).trans ?_
        have hu := updateA_snd_perm seen (contentKey item.content) item existing hl
        have step1 :
            List.Perm
              ((updateA seen (contentKey item.content) item).map Prod.snd
                ++ (conf ++ [existing]))
              (((updateA seen (contentKey item.content) item).map Prod.snd
                ++ [existing]) ++ conf) := by
          have hc : List.Perm (conf ++ [existing]) ([existing] ++ conf) :=
            @List.perm_append_comm _ conf [existing]
          refine (List.Perm.append_left _ hc).trans ?_
          rw [List.append_assoc]
        have step2 :
            List.Perm
              (((updateA seen (contentKey item.content) item).map Prod.snd
                ++ [existing]) ++ conf)
              ((seen.map Prod.snd ++ [item]) ++ conf) :=
          hu.append_right conf
        have step3 :
            List.Perm (((seen.map Prod.snd ++ [item]) ++ conf) ++ rest2)
              ((seen.map Prod.snd ++ conf) ++ (item :: rest2)) :=
          perm_snoc_shift (seen.map Prod.snd) conf rest2 item
        exact ((step1.append_right rest2).trans (step2.append_right rest2)).trans step3
      · rw [if_neg hts]
        refine (ih seen (conf ++ [item])).trans ?_
        have he : (seen.map Prod.snd ++ (conf ++ [item])) ++ rest2
            = (seen.map Prod.snd ++ conf) ++ (item :: rest2) := by
          simp [List.append_assoc]
        rw [he]

/-- C5 (amended): at the deduplication stage, for every pooled result
list and every fingerprint, exactly one colliding result survives into
the primary list — the fold of the collision group in pool order that
keeps the incumbent unless the newcomer is strictly more recent (i.e. the
most recent timestamp, ties broken by first-seen) — and the primaries
together with the `also_found` conflicts are a permutation of the whole
pool, so nothing is lost there.  The response then truncates primaries to
20 and conflicts to 10, so colliding results beyond those caps *are*
dropped from the returned response (see the counterexample). -/
theorem C5_dedup_one_primary_per_fingerprint (l : List QResult) :
    List.Perm ((deduplicate l).1 ++ (deduplicate l).2) l ∧
    (∀ k : String,
      ((deduplicate l).1).filter (fun r => decide (contentKey r.content = k))
        = (foldPickFrom none
            (l.filter (fun r => decide (contentKey r.content = k)))).toList) ∧
    assembleResponse l
      = ⟨(deduplicate l).1.take 20, (deduplicate l).2.take 10, l.length⟩ := by
  refine ⟨?_, ?_, rfl⟩
  · unfold deduplicate
    dsimp only
    have hs := (sortByTsDesc_perm ((dedupAux l [] []).1.map Prod.snd)).append_right
      (dedupAux l [] []).2
    refine hs.trans ?_
    have hp := dedupAux_perm l [] []
    simpa using hp
  · intro k
    have hinv := dedupAux_invariants l [] []
      (fun p hp => absurd hp (List.not_mem_nil p)) (by simp)
    have hv := values_filter_eq_lookup ((dedupAux l [] []).1) k hinv.1 hinv.2
    have hlk := dedupAux_lookup l [] [] k
    simp only [lookupA] at hlk
    unfold deduplicate
    dsimp only
    have hperm := (sortByTsDesc_perm ((dedupAux l [] []).1.map Prod.snd)).filter
      (fun r => decide (contentKey r.content = k))
    rw [hv, hlk] at hperm
    cases hfp : foldPickFrom none
        (l.filter (fun r => decide (contentKey r.content = k))) with
    | none =>
      rw [hfp] at hperm
      simp only [Option.toList_none] at hperm ⊢
      exact hperm.eq_nil
    | some a =>
      rw [hfp] at hperm
      simp only [Option.toList_some] at hperm ⊢
      exact List.Perm.eq_singleton hperm

/-- Twelve pairwise-distinct results with identical normalized content
and strictly increasing timestamps. -/
def ex5 : List QResult :=
  [⟨"dup", "f.md", 1, "s", "personal_vault", "2025-01-01T00:00:00Z"⟩,
   ⟨"dup", "f.md", 2, "s", "personal_vault", "2025-01-01T00:00:01Z"⟩,
   ⟨"dup", "f.md", 3, "s", "personal_vault", "2025-01-01T00:00:02Z"⟩,
   ⟨"dup", "f.md", 4, "s", "personal_vault", "2025-01-01T00:00:03Z"⟩,
   ⟨"dup", "f.md", 5, "s", "personal_vault", "2025-01-01T00:00:04Z"⟩,
   ⟨"dup", "f.md", 6, "s", "personal_vault", "2025-01-01T00:00:05Z"⟩,
   ⟨"dup", "f.md", 7, "s", "personal_vault", "2025-01-01T00:00:06Z"⟩,
   ⟨"dup", "f.md", 8, "s", "personal_vault", "2025-01-01T00:00:07Z"⟩,
   ⟨"dup", "f.md", 9, "s", "personal_vault", "2025-01-01T00:00:08Z"⟩,
   ⟨"dup", "f.md", 10, "s", "personal_vault", "2025-01-01T00:00:09Z"⟩,
   ⟨"dup", "f.md", 11, "s", "personal_vault", "2025-01-01T00:00:10Z"⟩,
   ⟨"dup", "f.md", 12, "s", "personal_vault", "2025-01-01T00:00:11Z"⟩]

/-- C5 counterexample: twelve distinct results sharing one fingerprint
produce one primary and eleven conflicts, but the response truncates
`also_found` to ten — so one colliding result appears in neither
`results` nor `also_found` and *is* discarded from the response,
refuting the original claim's "never discarded from the response". -/
theorem C5_counterexample :
    ex5.length = 12 ∧
    ex5.Nodup ∧
    (∀ r ∈ ex5, contentKey r.content = "dup") ∧
    (assembleResponse ex5).results.length = 1 ∧
    (assembleResponse ex5).also_found.length = 10 := by
  refine ⟨rfl, by decide, by decide, by decide, by decide⟩
